import Mathlib

/-!
Verification of the photo-sorter program (src/photo-sorter.py).

The program is embedded shallowly:
* EXIF tag values become the inductive `ExifVal` (strings, byte sequences,
  and `vint` standing for any other truthy-or-falsey scalar value).
* The Python dict returned by `get_exif` becomes an association list with
  Python dict semantics (assignment replaces in place, lookup finds the
  unique binding).
* `datetime.strptime(s, "%Y:%m:%d %H:%M:%S")` is modelled after the regex
  that CPython compiles for that format (fixed 4-digit year, 1-2 digit
  month/day/hour/minute/second with the documented ranges, a run of
  whitespace for the literal blank, full-match required), followed by the
  range validation performed by the `datetime` constructor.
* `bytes.decode(errors="ignore")` is modelled by a UTF-8 decoder that skips
  invalid prefixes, as CPython does.
* Paths are lists of components; `os.path.join(dir, name)` (with a plain,
  relative `name`, the only way it is used) is `dir ++ [name]`.
* `process_folder` is modelled as a function from the directory listing to
  the trace of file-system events it performs (mkdir -p, copy2, report
  write) plus the accumulated report rows and printed lines; the trace is
  then interpreted against an explicit file-system state, so that claims
  about the final contents of files can be stated and checked.
* Character-level helpers (`lower`, `isalnum`, `strip`) are modelled on the
  ASCII fragment that the specification and the tests exercise.
-/

namespace PhotoSorter

/-- An EXIF tag value: a string, a byte sequence, or some other scalar
(`vint`), which is enough to express Python truthiness and the
string/bytes distinctions the program makes. -/
inductive ExifVal where
  | vstr (s : String)
  | vbytes (b : List Nat)
  | vint (n : Int)
  deriving DecidableEq

/-- Python truthiness of an EXIF value: empty string, empty bytes and zero
are falsey. -/
def ExifVal.truthy : ExifVal → Bool
  | .vstr s => !s.data.isEmpty
  | .vbytes b => !b.isEmpty
  | .vint n => n != 0

/-- A key of the mapping built by `get_exif`: either a resolved tag name or
the raw numeric tag id (kept when the id is not in the tag-name table). -/
inductive ExifKey where
  | name (s : String)
  | num (n : Nat)
  deriving DecidableEq

/-- The metadata mapping (a Python dict). -/
abbrev ExifDict := List (ExifKey × ExifVal)

/-- Python dict lookup: `d.get(k)` (the dict built by `get_exif` binds each
key once, so first match is the binding). -/
def dictGet : ExifDict → ExifKey → Option ExifVal
  | [], _ => none
  | (k, v) :: t, q => if k = q then some v else dictGet t q

/-- Python dict assignment `d[k] = v`: replace an existing binding in place,
otherwise append. -/
def dictSet : ExifDict → ExifKey → ExifVal → ExifDict
  | [], k, v => [(k, v)]
  | (k0, v0) :: t, k, v => if k0 = k then (k, v) :: t else (k0, v0) :: dictSet t k v

/-- Removal of a key, used only to state that a falsey binding behaves like
a missing one. -/
def dictErase (d : ExifDict) (k : ExifKey) : ExifDict :=
  d.filter fun p => p.1 != k

/-- The standard EXIF tag-name table (`PIL.ExifTags.TAGS`), restricted to
the tags this program consults plus a neighbour; ids outside the table are
unresolved. -/
def TAGS (t : Nat) : Option String :=
  if t = 271 then some "Make"
  else if t = 272 then some "Model"
  else if t = 306 then some "DateTime"
  else if t = 36867 then some "DateTimeOriginal"
  else if t = 36868 then some "DateTimeDigitized"
  else none

/-- `ExifTags.TAGS.get(tag, tag)`: resolve a numeric id to a name, keeping
the raw id when unresolved. -/
def resolveTag (t : Nat) : ExifKey :=
  match TAGS t with
  | some s => .name s
  | none => .num t

/-- Outcome of `Image.open(path)._getexif()`: an exception (unreadable
file, unsupported format, missing attribute), a falsey result (`None`), or
a raw id-to-value association. -/
inductive PILOutcome where
  | error
  | noExif
  | ok (raw : List (Nat × ExifVal))
  deriving DecidableEq

/-- Lines 11-23 of the source: build the name-keyed mapping from the raw
tag association; any exception and a falsey raw table both yield the empty
mapping, and the function is total (the `try`/`except Exception` wrapper
means no error ever propagates to the caller). -/
def get_exif : PILOutcome → ExifDict
  | .error => []
  | .noExif => []
  | .ok raw => raw.foldl (fun d p => dictSet d (resolveTag p.1) p.2) []

/-! ### Character helpers (ASCII fragment of the Python `str` methods) -/

/-- The ASCII case-folding pairs used by `str.lower`. -/
def lowerPairs : List (Char × Char) :=
  [('A', 'a'), ('B', 'b'), ('C', 'c'), ('D', 'd'), ('E', 'e'), ('F', 'f'),
   ('G', 'g'), ('H', 'h'), ('I', 'i'), ('J', 'j'), ('K', 'k'), ('L', 'l'),
   ('M', 'm'), ('N', 'n'), ('O', 'o'), ('P', 'p'), ('Q', 'q'), ('R', 'r'),
   ('S', 's'), ('T', 't'), ('U', 'u'), ('V', 'v'), ('W', 'w'), ('X', 'x'),
   ('Y', 'y'), ('Z', 'z')]

/-- `str.lower` on one character (ASCII fragment). -/
def pyLower (c : Char) : Char :=
  ((lowerPairs.find? fun p => p.1 == c).map Prod.snd).getD c

/-- Python `\s` (ASCII fragment): the whitespace characters of `str.strip`
and of the regex class. -/
def isWS (c : Char) : Bool :=
  c == ' ' || c == '\t' || c == '\n' || c == '\x0d' || c == '\x0b' || c == '\x0c'

/-- `str.isalnum` on one character (ASCII fragment). -/
def pyIsAlnum (c : Char) : Bool :=
  decide (('0' ≤ c ∧ c ≤ '9') ∨ ('a' ≤ c ∧ c ≤ 'z') ∨ ('A' ≤ c ∧ c ≤ 'Z'))

/-- `str.strip()`: drop leading and trailing whitespace. -/
def pyStrip (l : List Char) : List Char :=
  ((l.dropWhile isWS).reverse.dropWhile isWS).reverse

/-! ### UTF-8 decoding with `errors="ignore"` -/

/-- A UTF-8 continuation byte. -/
def isCont (b : Nat) : Bool := decide (0x80 ≤ b ∧ b ≤ 0xBF)

/-- Allowed second byte of a three-byte sequence headed by `b`. -/
def cont3ok (b c1 : Nat) : Bool :=
  if b = 0xE0 then decide (0xA0 ≤ c1 ∧ c1 ≤ 0xBF)
  else if b = 0xED then decide (0x80 ≤ c1 ∧ c1 ≤ 0x9F)
  else isCont c1

/-- Allowed second byte of a four-byte sequence headed by `b`. -/
def cont4ok (b c1 : Nat) : Bool :=
  if b = 0xF0 then decide (0x90 ≤ c1 ∧ c1 ≤ 0xBF)
  else if b = 0xF4 then decide (0x80 ≤ c1 ∧ c1 ≤ 0x8F)
  else isCont c1

/-- Fuelled UTF-8 decoder that skips maximal invalid prefixes, as the
CPython `ignore` error handler does; the fuel is the length of the input,
which bounds the number of steps since every step consumes at least one
byte. -/
def utf8Go : Nat → List Nat → List Char
  | 0, _ => []
  | _ + 1, [] => []
  | fuel + 1, b :: rest =>
    if b < 0x80 then Char.ofNat b :: utf8Go fuel rest
    else if 0xC2 ≤ b && b ≤ 0xDF then
      match rest with
      | [] => []
      | c1 :: r2 =>
        if isCont c1 then Char.ofNat ((b - 0xC0) * 64 + (c1 - 0x80)) :: utf8Go fuel r2
        else utf8Go fuel rest
    else if 0xE0 ≤ b && b ≤ 0xEF then
      match rest with
      | [] => []
      | [c1] => if cont3ok b c1 then [] else utf8Go fuel [c1]
      | c1 :: c2 :: r3 =>
        if cont3ok b c1 then
          if isCont c2 then
            Char.ofNat ((b - 0xE0) * 4096 + (c1 - 0x80) * 64 + (c2 - 0x80)) :: utf8Go fuel r3
          else utf8Go fuel (c2 :: r3)
        else utf8Go fuel rest
    else if 0xF0 ≤ b && b ≤ 0xF4 then
      match rest with
      | [] => []
      | [c1] => if cont4ok b c1 then [] else utf8Go fuel [c1]
      | [c1, c2] => if cont4ok b c1 && isCont c2 then [] else
          if cont4ok b c1 then utf8Go fuel [c2] else utf8Go fuel [c1, c2]
      | c1 :: c2 :: c3 :: r4 =>
        if cont4ok b c1 then
          if isCont c2 then
            if isCont c3 then
              Char.ofNat ((b - 0xF0) * 262144 + (c1 - 0x80) * 4096 +
                (c2 - 0x80) * 64 + (c3 - 0x80)) :: utf8Go fuel r4
            else utf8Go fuel (c3 :: r4)
          else utf8Go fuel (c2 :: c3 :: r4)
        else utf8Go fuel rest
    else utf8Go fuel rest

/-- `bytes.decode(errors="ignore")` with the default UTF-8 codec. -/
def utf8DecodeIgnore (l : List Nat) : List Char :=
  utf8Go l.length l

/-! ### The `strptime` model -/

/-- Digit value of an ASCII digit character. -/
def dv (c : Char) : Nat := c.toNat - 48

/-- An ASCII digit. -/
def isDig (c : Char) : Bool := decide ('0' ≤ c ∧ c ≤ '9')

/-- A field matched by an ordered two-digit/one-digit regex alternation:
try the two-character alternatives first, then the single-character one.
Since every field of this format is followed by a separator that is not a
digit, committing to the longer match is equivalent to the backtracking
regex. -/
def pField (two : Char → Char → Bool) (one : Char → Bool) :
    List Char → Option (Nat × List Char)
  | [] => none
  | [a] => if one a then some (dv a, []) else none
  | a :: b :: r =>
    if two a b then some (10 * dv a + dv b, r)
    else if one a then some (dv a, b :: r) else none

/-- A literal character of the format. -/
def pLit (c : Char) : List Char → Option (List Char)
  | [] => none
  | x :: r => if x = c then some r else none

/-- The format blank, compiled by `_strptime` to a run of whitespace. -/
def pWS : List Char → Option (List Char)
  | [] => none
  | x :: r => if isWS x then some (r.dropWhile isWS) else none

/-- `%Y`: exactly four digits. -/
def pY4 : List Char → Option (Nat × List Char)
  | a :: b :: c :: d :: r =>
    if isDig a && isDig b && isDig c && isDig d then
      some (1000 * dv a + 100 * dv b + 10 * dv c + dv d, r)
    else none
  | _ => none

/-- `%m`: regex `1[0-2]|0[1-9]|[1-9]`, two-character part. -/
def monthTwo (a b : Char) : Bool :=
  (a == '1' && decide ('0' ≤ b ∧ b ≤ '2')) || (a == '0' && decide ('1' ≤ b ∧ b ≤ '9'))

/-- A nonzero digit. -/
def nzDigit (a : Char) : Bool := decide ('1' ≤ a ∧ a ≤ '9')

/-- `%d`: regex `3[01]|[12]\d|0[1-9]|[1-9]`, two-character part. -/
def dayTwo (a b : Char) : Bool :=
  (a == '3' && (b == '0' || b == '1')) || ((a == '1' || a == '2') && isDig b) ||
    (a == '0' && nzDigit b)

/-- `%H`: regex `2[0-3]|[0-1]\d|\d`, two-character part. -/
def hourTwo (a b : Char) : Bool :=
  (a == '2' && decide ('0' ≤ b ∧ b ≤ '3')) || ((a == '0' || a == '1') && isDig b)

/-- `%M`: regex `[0-5]\d|\d`, two-character part. -/
def minTwo (a b : Char) : Bool := decide ('0' ≤ a ∧ a ≤ '5') && isDig b

/-- `%S`: regex `6[0-1]|[0-5]\d|\d`, two-character part. -/
def secTwo (a b : Char) : Bool :=
  (a == '6' && (b == '0' || b == '1')) || (decide ('0' ≤ a ∧ a ≤ '5') && isDig b)

/-- The six fields of `"%Y:%m:%d %H:%M:%S"`. -/
structure D6 where
  y : Nat
  mo : Nat
  d : Nat
  hh : Nat
  mi : Nat
  ss : Nat
  deriving DecidableEq

/-- Match the compiled regex of the format `"%Y:%m:%d %H:%M:%S"` against
the whole input (`strptime` rejects unconverted trailing data). -/
def strptimeRegex (l : List Char) : Option D6 := do
  let (y, r1) ← pY4 l
  let r2 ← pLit ':' r1
  let (mo, r3) ← pField monthTwo nzDigit r2
  let r4 ← pLit ':' r3
  let (d, r5) ← pField dayTwo nzDigit r4
  let r6 ← pWS r5
  let (hh, r7) ← pField hourTwo isDig r6
  let r8 ← pLit ':' r7
  let (mi, r9) ← pField minTwo isDig r8
  let r10 ← pLit ':' r9
  let (ss, r11) ← pField secTwo isDig r10
  if r11.isEmpty then some ⟨y, mo, d, hh, mi, ss⟩ else none

/-- Gregorian leap year. -/
def isLeap (y : Nat) : Bool := y % 4 == 0 && (y % 100 != 0 || y % 400 == 0)

/-- Length of a month. -/
def daysInMonth (y m : Nat) : Nat :=
  if m = 2 then (if isLeap y then 29 else 28)
  else if m = 4 ∨ m = 6 ∨ m = 9 ∨ m = 11 then 30
  else 31

/-- The range checks of the `datetime` constructor (no year zero, real
calendar day, no leap second). -/
def validDT (t : D6) : Bool :=
  decide (1 ≤ t.y ∧ t.y ≤ 9999 ∧ 1 ≤ t.mo ∧ t.mo ≤ 12 ∧ 1 ≤ t.d ∧
    t.d ≤ daysInMonth t.y t.mo ∧ t.hh ≤ 23 ∧ t.mi ≤ 59 ∧ t.ss ≤ 59)

/-- `datetime.strptime(s, "%Y:%m:%d %H:%M:%S")`: regex match plus
constructor validation; `none` models the `ValueError`/`TypeError` that the
caller catches. -/
def pyStrptimeDate (s : String) : Option D6 :=
  (strptimeRegex s.data).bind fun t => if validDT t then some t else none

/-- Zero-padding to two digits. -/
def pad2 (n : Nat) : String := if n < 10 then "0" ++ toString n else toString n

/-- Zero-padding to four digits. -/
def pad4 (n : Nat) : String :=
  if n < 10 then "000" ++ toString n
  else if n < 100 then "00" ++ toString n
  else if n < 1000 then "0" ++ toString n
  else toString n

/-- `.date().isoformat()`: the date portion as `YYYY-MM-DD`. -/
def isoDate (t : D6) : String := pad4 t.y ++ "-" ++ pad2 t.mo ++ "-" ++ pad2 t.d

/-! ### Date and camera derivation -/

def kDTO : ExifKey := .name "DateTimeOriginal"
def kDT : ExifKey := .name "DateTime"
def kModel : ExifKey := .name "Model"
def kMake : ExifKey := .name "Make"

/-- Keep an optional value only when truthy; the building block of the
Python `a or b or c` chains over `dict.get` results. -/
def truthyOpt (o : Option ExifVal) : Option ExifVal :=
  o.bind fun v => if v.truthy then some v else none

/-- The truthy-or chain over the two date tags. -/
def dtChain (exif : ExifDict) : Option ExifVal :=
  (truthyOpt (dictGet exif kDTO)).orElse fun _ => truthyOpt (dictGet exif kDT)

/-- Lines 25-35 of the source: `DateTimeOriginal or DateTime or ""`, decode
byte values ignoring errors, parse with the fixed pattern inside a
`try`/`except` and return the ISO date, otherwise the empty string (a
truthy non-string, non-bytes value raises `TypeError` inside the `try` and
also yields the empty string). -/
def get_date_from_exif (exif : ExifDict) : String :=
  let dt0 : ExifVal := (dtChain exif).getD (.vstr "")
  let dt : ExifVal :=
    match dt0 with
    | .vbytes b => .vstr (String.mk (utf8DecodeIgnore b))
    | v => v
  if dt.truthy then
    match dt with
    | .vstr s =>
      match pyStrptimeDate s with
      | some t => isoDate t
      | none => ""
    | _ => ""
  else ""

/-- Lines 37-38 of the source: `exif.get("Model", "") or exif.get("Make", "")`. -/
def get_camera_from_exif (exif : ExifDict) : ExifVal :=
  let m := (dictGet exif kModel).getD (.vstr "")
  if m.truthy then m else (dictGet exif kMake).getD (.vstr "")

/-! ### File-name filtering -/

/-- The text after the last dot of a character list, when there is a dot
(the second half of Python `rsplit(".", 1)`). -/
def extOf : List Char → Option (List Char)
  | [] => none
  | c :: rest =>
    match extOf rest with
    | some e => some e
    | none => if c = '.' then some rest else none

/-- The accepted extensions. -/
def imageExts : List String := ["jpg", "jpeg", "png", "tiff", "heic"]

/-- Lines 43-46 of the source: lowercase the name, split at the last dot,
reject names with no dot, and test the extension against the list. -/
def is_image_file (fname : String) : Bool :=
  match extOf (fname.data.map pyLower) with
  | none => false
  | some e => decide (String.mk e ∈ imageExts)

/-- Follows the wording of the specification: the extension is the text
after the final dot of the (unmodified) name, compared case-insensitively
against the list; files with no extension are skipped. -/
def specImageFile (fname : String) : Bool :=
  match extOf fname.data with
  | none => false
  | some e => decide (String.mk (e.map pyLower) ∈ imageExts)

/-- Follows the wording of the specification for date derivation: read
`DateTimeOriginal` falling back to `DateTime` (a falsey value is not a
usable reading); decode byte sequences as text ignoring undecodable bytes;
parse with the fixed pattern `YYYY:MM:DD HH:MM:SS`; on success return the
date portion in ISO-8601 form, on any parse failure or absence of both
tags return the empty string. -/
def dateDerivationSpec (exif : ExifDict) : String :=
  match dtChain exif with
  | none => ""
  | some v =>
    match v with
    | .vstr s =>
      match pyStrptimeDate s with
      | some t => isoDate t
      | none => ""
    | .vbytes b =>
      match pyStrptimeDate (String.mk (utf8DecodeIgnore b)) with
      | some t => isoDate t
      | none => ""
    | .vint _ => ""

/-! ### Paths, directory entries and the event trace -/

/-- A file-system path as a list of components. `os.path.join(dir, name)`
with a plain relative `name` (the only use in the program) appends one
component; names returned by `os.listdir` contain no separator, so path
equality is component-wise equality. -/
abbrev FPath := List String

/-- Rendering a path the way the program prints and records it. -/
def renderPath (p : FPath) : String := String.intercalate "/" p

/-- One entry of the input folder listing, together with what the file
system and PIL would answer for it: regular-file status, content bytes,
stat data (`shutil.copy2` copies modification time and permission bits),
and the outcome of the EXIF read. -/
structure Entry where
  name : String
  isFile : Bool
  content : List Nat
  mtime : Int
  perms : Nat
  pil : PILOutcome
  deriving DecidableEq

/-- The sorting mode selected by the `--by` flag (argparse restricts it to
these two choices). -/
inductive SortMode where
  | date
  | camera
  deriving DecidableEq

/-- The mode as the string used in the output folder name. -/
def SortMode.str : SortMode → String
  | .date => "date"
  | .camera => "camera"

/-- One record of the report (the dict appended at lines 74-80). -/
structure Row where
  filename : String
  date : String
  camera : ExifVal
  orig : FPath
  dest : FPath
  deriving DecidableEq

/-- A file-system effect of the run: `os.makedirs(p, exist_ok=True)`,
`shutil.copy2(src, dst)`, or the report write (`open(p, "w")` plus the CSV
rows, given as rendered cells). -/
inductive WEvent where
  | mkdirp (p : FPath)
  | copy2 (src dst : FPath)
  | writeReport (p : FPath) (table : List (List String))
  deriving DecidableEq

/-- `str()` of a cell value as the `csv` writer applies it (byte values are
rendered with the printable-ASCII `repr` of `bytes`). -/
def pyStrOf : ExifVal → String
  | .vstr s => s
  | .vint n => toString n
  | .vbytes b => "b\x27" ++ String.mk (b.map Char.ofNat) ++ "\x27"

/-- The fixed CSV header. -/
def csvHeader : List String := ["filename", "date", "camera", "orig_path", "dest_path"]

/-- The cells of one data row. -/
def renderRow (r : Row) : List String :=
  [r.filename, r.date, pyStrOf r.camera, renderPath r.orig, renderPath r.dest]

/-- The arguments of `process_folder`: the absolute input folder (as path
components), the mode, and the report file name. -/
structure PFConfig where
  base : FPath
  mode : SortMode
  report : String
  deriving DecidableEq

/-- `<input_folder>/sorted_by_<mode>` (line 50). -/
def sortedByDir (c : PFConfig) : FPath := c.base ++ ["sorted_by_" ++ c.mode.str]

/-- `<input_folder>/<report_filename>` (line 84). -/
def reportPath (c : PFConfig) : FPath := c.base ++ [c.report]

/-- Line 56: an entry is processed iff it is a regular file with an
accepted image extension. -/
def acceptEntry (e : Entry) : Bool := e.isFile && is_image_file e.name

/-- Line 64: keep only alphanumerics, blanks, underscores and hyphens,
strip surrounding whitespace, and fall back to `UnknownCamera` when the
result is empty. -/
def sanitizeCamera (s : String) : String :=
  let kept := s.data.filter fun c => pyIsAlnum c || c == ' ' || c == '_' || c == '-'
  let t := pyStrip kept
  if t.isEmpty then "UnknownCamera" else String.mk t

/-- Lines 61-67: the target subfolder name; `none` models the uncaught
`TypeError`/`AttributeError` raised when a truthy non-string camera value
reaches the sanitizing comprehension in camera mode. -/
def targetSub (mode : SortMode) (date : String) (cam : ExifVal) : Option String :=
  match mode with
  | .date => if date ≠ "" then some date else some "unsorted"
  | .camera =>
    if cam.truthy then
      match cam with
      | .vstr s => some (sanitizeCamera s)
      | _ => none
    else some "unsorted"

/-- The record built for one accepted entry (lines 58-80): derived date and
camera, source path and destination path. -/
def entryRow (c : PFConfig) (e : Entry) : Option Row :=
  let exif := get_exif e.pil
  let date := get_date_from_exif exif
  let cam := get_camera_from_exif exif
  (targetSub c.mode date cam).map fun sub =>
    { filename := e.name, date := date, camera := cam,
      orig := c.base ++ [e.name],
      dest := c.base ++ ["sorted_by_" ++ c.mode.str, sub, e.name] }

/-- The events performed for one accepted entry: ensure the target
directory, then copy (lines 69-72). -/
def entryTrace (c : PFConfig) (e : Entry) : Option (List WEvent × Row) :=
  (entryRow c e).map fun r => ([.mkdirp r.dest.dropLast, .copy2 r.orig r.dest], r)

/-- The loop of lines 54-81 over an already-sorted listing: skip
non-accepted entries, otherwise perform the per-entry events and append
the record. -/
def processEntries (c : PFConfig) : List Entry → Option (List WEvent × List Row)
  | [] => some ([], [])
  | e :: rest =>
    if acceptEntry e then
      match entryTrace c e with
      | none => none
      | some (evs, r) =>
        match processEntries c rest with
        | none => none
        | some (evs2, rows) => some (evs ++ evs2, r :: rows)
    else processEntries c rest

/-- The full result of a run: the ordered event trace, the report records,
and the lines printed to standard output. -/
structure PFOut where
  events : List WEvent
  rows : List Row
  prints : List String
  deriving DecidableEq

/-- The progress line of line 81 (`os.path.relpath(dest, infolder)` for a
destination under the input folder drops the folder components). -/
def progressLine (c : PFConfig) (r : Row) : String :=
  "[+] " ++ r.filename ++ " -> " ++ renderPath (r.dest.drop c.base.length)

/-- Lexicographic comparison of character lists by code point: the order
Python uses to compare strings. -/
def charsLe : List Char → List Char → Bool
  | [], _ => true
  | _ :: _, [] => false
  | x :: xs, y :: ys =>
    if x.toNat < y.toNat then true
    else if y.toNat < x.toNat then false
    else charsLe xs ys

/-- Python string comparison, code point by code point. -/
def pyStrLe (a b : String) : Bool := charsLe a.data b.data

/-- `sorted(os.listdir(infolder))` (line 54): Python sorts the names
lexicographically by code point; the listing is sorted by name. -/
def sortEntries (l : List Entry) : List Entry :=
  List.insertionSort (fun a b => pyStrLe a.name b.name = true) l

instance : IsTrans Entry fun a b => pyStrLe a.name b.name = true := by
  constructor
  intro a b c
  unfold pyStrLe
  generalize a.name.data = x
  generalize b.name.data = y
  generalize c.name.data = z
  induction x generalizing y z with
  | nil => intro _ _; rfl
  | cons cx xs ih =>
    intro h1 h2
    cases y with
    | nil => simp [charsLe] at h1
    | cons cy ys =>
      cases z with
      | nil => simp [charsLe] at h2
      | cons cz zs =>
        simp only [charsLe] at h1 h2 ⊢
        split_ifs at h1 h2 ⊢ <;>
          first
          | rfl
          | omega
          | exact ih ys zs h1 h2

instance : IsTotal Entry fun a b => pyStrLe a.name b.name = true := by
  constructor
  intro a b
  unfold pyStrLe
  generalize a.name.data = x
  generalize b.name.data = y
  induction x generalizing y with
  | nil => left; rfl
  | cons cx xs ih =>
    cases y with
    | nil => right; rfl
    | cons cy ys =>
      simp only [charsLe]
      rcases ih ys with h | h <;> split_ifs <;>
        first
        | left; rfl
        | right; rfl
        | omega
        | (left; assumption)
        | (right; assumption)

/-- Lines 48-93: create the output base folder, process the sorted
listing, then write the report (header row plus one row per record, an
existing file at that path being truncated by `open(..., "w")`). -/
def process_folder (c : PFConfig) (listing : List Entry) : Option PFOut :=
  match processEntries c (sortEntries listing) with
  | none => none
  | some (evs, rows) =>
    some { events := .mkdirp (sortedByDir c) :: evs ++
             [.writeReport (reportPath c) (csvHeader :: rows.map renderRow)],
           rows := rows,
           prints := rows.map (progressLine c) ++
             ["\nReport written to: " ++ renderPath (reportPath c),
              "Sorted output folder: " ++ renderPath (sortedByDir c)] }

/-! ### Interpretation of the event trace on a file-system state -/

/-- The stat data copied by `shutil.copy2`. -/
structure FStat where
  mtime : Int
  perms : Nat
  deriving DecidableEq

/-- Content of a file: raw bytes, or the rendered CSV table for the report
file. -/
inductive FContent where
  | bytes (b : List Nat)
  | table (t : List (List String))
  deriving DecidableEq

/-- A file object: content plus stat data (`none` for a freshly written
file whose stat is the current time). -/
structure FileObj where
  content : FContent
  stat : Option FStat
  deriving DecidableEq

/-- The file object of a listed entry. -/
def entryObj (e : Entry) : FileObj :=
  { content := .bytes e.content, stat := some ⟨e.mtime, e.perms⟩ }

/-- A file-system state: files by path, plus the set of existing
directories. -/
structure FSt where
  files : List (FPath × FileObj)
  dirs : List FPath
  deriving DecidableEq

/-- Lookup of a path in the file table. -/
def lookupF : List (FPath × FileObj) → FPath → Option FileObj
  | [], _ => none
  | (q, o) :: t, p => if q = p then some o else lookupF t p

/-- Store at a path, replacing an existing file (silent overwrite). -/
def setF : List (FPath × FileObj) → FPath → FileObj → List (FPath × FileObj)
  | [], p, o => [(p, o)]
  | (q, o0) :: t, p, o => if q = p then (p, o) :: t else (q, o0) :: setF t p o

/-- One event against a state: `mkdirp` adds the directory and all its
parents (idempotently — duplicates are harmless since `dirs` is read by
membership); `copy2` reads the source object and stores it, content and
stat, at the destination, requiring the destination directory to exist;
the report write stores the table with fresh stat data. `none` models an
`OSError` that the program would not catch. -/
def applyEvent (fs : FSt) : WEvent → Option FSt
  | .mkdirp p => some { fs with dirs := p.inits ++ fs.dirs }
  | .copy2 src dst =>
    (lookupF fs.files src).bind fun o =>
      if dst.dropLast ∈ fs.dirs then
        some { fs with files := setF fs.files dst o }
      else none
  | .writeReport p t =>
    if p.dropLast ∈ fs.dirs then
      some { fs with files := setF fs.files p ⟨.table t, none⟩ }
    else none

/-- Run a trace from a state. -/
def runEvents : FSt → List WEvent → Option FSt
  | fs, [] => some fs
  | fs, ev :: t => (applyEvent fs ev).bind fun fs2 => runEvents fs2 t

/-- The path written by an event, if any. -/
def writesPath : WEvent → Option FPath
  | .mkdirp _ => none
  | .copy2 _ dst => some dst
  | .writeReport p _ => some p

/-! ### Top-level orchestration -/

/-- The result of `main`: exit status, standard-output lines, and the
events performed. -/
structure MainOut where
  exit : Nat
  outLines : List String
  events : List WEvent
  deriving DecidableEq

/-- Lines 95-104: validate the input folder (printing the error and
exiting with status 1 without touching the file system when it is not a
directory), otherwise run the pipeline and exit with status 0; `none`
models an exception escaping `process_folder`. -/
def pymain (folderArg : String) (isdir : Bool) (c : PFConfig)
    (listing : List Entry) : Option MainOut :=
  if isdir then
    match process_folder c listing with
    | none => none
    | some out => some { exit := 0, outLines := out.prints, events := out.events }
  else
    some { exit := 1,
           outLines := ["Input folder doesn\x27t exist: " ++ folderArg],
           events := [] }

/-! ### Specification-side classification -/

/-- The camera value as the string the classification sentence of the
specification speaks about; a truthy non-string value never reaches a
completed classification (the program raises instead), so rendering the
remaining, falsey cases as the empty string is faithful. -/
def camCellStr : ExifVal → String
  | .vstr s => s
  | _ => ""

/-- Follows the wording of claim C1 / section 4.3 of the specification:
date mode with a non-empty date uses the date; camera mode with a
non-empty camera uses the sanitized camera name (or `UnknownCamera` when
sanitizing empties it); otherwise `unsorted`. -/
def specSubfolderName (mode : SortMode) (date cam : String) : String :=
  if mode = .date ∧ date ≠ "" then date
  else if mode = .camera ∧ cam ≠ "" then sanitizeCamera cam
  else "unsorted"

/-! ### Concrete scenarios used to instantiate the theorems -/

/-- A JPEG with a full EXIF block. -/
def entA : Entry :=
  ⟨"a.jpg", true, [1, 2, 3], 100, 420,
   .ok [(36867, .vstr "2020:05:01 10:00:00"), (272, .vstr "Canon/EOS-5D!")]⟩

/-- A PNG whose metadata read fails. -/
def entPng : Entry := ⟨"b.png", true, [7, 8], 200, 420, .error⟩

/-- A text file (skipped by the extension filter). -/
def entTxt : Entry := ⟨"notes.txt", true, [9], 300, 420, .error⟩

/-- The output directory itself, listed as a non-file entry. -/
def entDir : Entry := ⟨"sorted_by_date", false, [], 0, 0, .error⟩

/-- A run over `/photos` in date mode with the default report name. -/
def cfgDate : PFConfig := ⟨["/photos"], .date, "report.csv"⟩

/-- The same run in camera mode. -/
def cfgCam : PFConfig := ⟨["/photos"], .camera, "report.csv"⟩

/-- An unsorted listing of the four entries. -/
def listingW : List Entry := [entTxt, entPng, entA, entDir]

/-- The result of the date-mode run. -/
def outW : PFOut := (process_folder cfgDate listingW).getD ⟨[], [], []⟩

/-- The first report record of the date-mode run. -/
def rowAW : Row := outW.rows.head?.getD ⟨"", "", .vstr "", [], []⟩

/-- The second report record of the date-mode run. -/
def rowBW : Row := (outW.rows.drop 1).head?.getD ⟨"", "", .vstr "", [], []⟩

/-- The result of the camera-mode run. -/
def outCamW : PFOut := (process_folder cfgCam listingW).getD ⟨[], [], []⟩

/-- The first report record of the camera-mode run. -/
def rowCamW : Row := outCamW.rows.head?.getD ⟨"", "", .vstr "", [], []⟩

/-- The initial file system of the scenario: the three regular files listed
in `/photos`. -/
def fs0W : FSt :=
  ⟨[(["/photos", "a.jpg"], entryObj entA), (["/photos", "b.png"], entryObj entPng),
    (["/photos", "notes.txt"], entryObj entTxt)],
   [[], ["/photos"]]⟩

/-- The file system after the date-mode run. -/
def finW : FSt := (runEvents fs0W outW.events).getD ⟨[], []⟩

/-- The clashing configuration: the report name is itself a processed image
name. -/
def cfgClash : PFConfig := ⟨["/photos"], .date, "a.jpg"⟩

/-- The run of the clashing configuration over the single image. -/
def outClash : PFOut := (process_folder cfgClash [entA]).getD ⟨[], [], []⟩

/-- Its report record. -/
def rowClash : Row := outClash.rows.head?.getD ⟨"", "", .vstr "", [], []⟩

/-- The initial file system of the clashing run. -/
def fs0Clash : FSt := ⟨[(["/photos", "a.jpg"], entryObj entA)], [[], ["/photos"]]⟩

/-- The file system after the clashing run. -/
def finClash : FSt := (runEvents fs0Clash outClash.events).getD ⟨[], []⟩

/-- A metadata mapping with falsey primary tags and usable fallbacks. -/
def dictFalsey : ExifDict :=
  [(kDTO, .vstr ""), (kDT, .vstr "1999:12:31 00:00:00"),
   (kModel, .vstr ""), (kMake, .vstr "Nikon")]

/-! ## Lemmas about the metadata dictionary -/

theorem exists_mem_dictSet {d : ExifDict} {k0 : ExifKey} {v : ExifVal} (k : ExifKey) :
    (∃ u, (k, u) ∈ dictSet d k0 v) ↔ k = k0 ∨ ∃ u, (k, u) ∈ d := by
  induction d with
  | nil => simp [dictSet]
  | cons p t ih =>
    obtain ⟨k1, v1⟩ := p
    by_cases h : k1 = k0
    · subst h
      simp only [dictSet, if_pos rfl, List.mem_cons, Prod.mk.injEq]
      aesop
    · rw [show dictSet ((k1, v1) :: t) k0 v = (k1, v1) :: dictSet t k0 v by
        simp [dictSet, h]]
      constructor
      · rintro ⟨u, hu⟩
        rcases List.mem_cons.mp hu with he | hm
        · right
          exact ⟨v1, List.mem_cons.mpr (Or.inl (by
            obtain ⟨hk, _⟩ := Prod.mk.injEq .. ▸ he
            rw [hk]))⟩
        · rcases ih.mp ⟨u, hm⟩ with h0 | ⟨u2, hu2⟩
          · exact Or.inl h0
          · exact Or.inr ⟨u2, List.mem_cons_of_mem _ hu2⟩
      · rintro (h0 | ⟨u, hu⟩)
        · obtain ⟨u, hu⟩ := ih.mpr (Or.inl h0)
          exact ⟨u, List.mem_cons_of_mem _ hu⟩
        · rcases List.mem_cons.mp hu with he | hm
          · exact ⟨u, List.mem_cons.mpr (Or.inl he)⟩
          · obtain ⟨u2, hu2⟩ := ih.mpr (Or.inr ⟨u, hm⟩)
            exact ⟨u2, List.mem_cons_of_mem _ hu2⟩

theorem exists_mem_foldl_dictSet (raw : List (Nat × ExifVal)) :
    ∀ (d : ExifDict) (k : ExifKey),
      (∃ u, (k, u) ∈ raw.foldl (fun d p => dictSet d (resolveTag p.1) p.2) d) ↔
        (∃ u, (k, u) ∈ d) ∨ ∃ t v, (t, v) ∈ raw ∧ resolveTag t = k := by
  induction raw with
  | nil => simp
  | cons p rest ih =>
    intro d k
    obtain ⟨t0, v0⟩ := p
    rw [List.foldl_cons, ih, exists_mem_dictSet]
    simp only [List.mem_cons, Prod.mk.injEq]
    aesop

theorem dictGet_dictErase_self (d : ExifDict) (k : ExifKey) :
    dictGet (dictErase d k) k = none := by
  induction d with
  | nil => rfl
  | cons p t ih =>
    obtain ⟨k1, v1⟩ := p
    by_cases h : k1 = k
    · simpa [dictErase, List.filter_cons, h] using ih
    · simpa [dictErase, List.filter_cons, h, dictGet] using ih

theorem dictGet_dictErase_ne {q k : ExifKey} (d : ExifDict) (h : q ≠ k) :
    dictGet (dictErase d k) q = dictGet d q := by
  induction d with
  | nil => rfl
  | cons p t ih =>
    obtain ⟨k1, v1⟩ := p
    by_cases h1 : k1 = k
    · subst h1
      have : k1 ≠ q := fun hq => h hq.symm
      simpa [dictErase, List.filter_cons, dictGet, this] using ih
    · by_cases h2 : k1 = q
      · subst h2
        simp [dictErase, List.filter_cons, h, dictGet]
      · simpa [dictErase, List.filter_cons, h1, dictGet, h2] using ih

theorem truthyOpt_eq_some {o : Option ExifVal} {v : ExifVal}
    (h : truthyOpt o = some v) : v.truthy = true := by
  cases o with
  | none => simp [truthyOpt] at h
  | some w =>
    by_cases hw : w.truthy
    · simp [truthyOpt, hw] at h
      exact h ▸ hw
    · simp [truthyOpt, hw] at h

theorem dtChain_eq_some {exif : ExifDict} {v : ExifVal}
    (h : dtChain exif = some v) : v.truthy = true := by
  unfold dtChain at h
  cases h1 : truthyOpt (dictGet exif kDTO) with
  | some w =>
    rw [h1] at h
    simp only [Option.orElse] at h
    cases h
    exact truthyOpt_eq_some h1
  | none =>
    rw [h1] at h
    simp only [Option.orElse] at h
    exact truthyOpt_eq_some h

/-- Claim C7: the metadata extractor maps every failure outcome (unreadable
file, missing or falsey metadata, corrupt format, unsupported codec) to the
empty mapping and, being a total function, never propagates an error; on
success the keys of the mapping are exactly the tag ids of the raw table
resolved through the standard tag-name table, unresolved ids being kept as
their raw numeric key. -/
theorem exif_extractor_contract :
    get_exif .error = [] ∧ get_exif .noExif = [] ∧
    ∀ raw : List (Nat × ExifVal), ∀ k : ExifKey,
      (∃ v, (k, v) ∈ get_exif (.ok raw)) ↔ ∃ t v, (t, v) ∈ raw ∧ resolveTag t = k := by
  refine ⟨rfl, rfl, fun raw k => ?_⟩
  simpa [get_exif] using exists_mem_foldl_dictSet raw [] k

/-- Claim C2: date derivation reads `DateTimeOriginal` falling back to
`DateTime`, decodes byte values as text ignoring undecodable bytes, parses
with the fixed pattern `YYYY:MM:DD HH:MM:SS`, returns the date portion as
`YYYY-MM-DD` on success and the empty string on any parse failure or on
absence of both tags: the code function coincides with the function written
from the specification wording. -/
theorem date_derivation_matches_spec :
    ∀ exif : ExifDict, get_date_from_exif exif = dateDerivationSpec exif := by
  intro exif
  unfold get_date_from_exif dateDerivationSpec
  cases h : dtChain exif with
  | none => decide
  | some v =>
    have hv := dtChain_eq_some h
    cases v with
    | vstr s => simp [hv]
    | vbytes b =>
      cases hd : utf8DecodeIgnore b with
      | nil => simp [hd, ExifVal.truthy, pyStrptimeDate, strptimeRegex, pY4]
      | cons ch rest => simp [hd, ExifVal.truthy]
    | vint n => simp [ExifVal.truthy]

/-- Claim C10: the fallbacks in metadata derivation trigger on any falsey
value, not only on a missing key: a falsey `DateTimeOriginal` binding makes
date derivation behave exactly as if the key were absent (so `DateTime` is
used), and a falsey `Model` binding makes camera derivation behave exactly
as if the key were absent (so `Make` is used). -/
theorem falsey_fallback_in_derivation (d : ExifDict) :
    (∀ v, dictGet d kDTO = some v → v.truthy = false →
      get_date_from_exif d = get_date_from_exif (dictErase d kDTO)) ∧
    (∀ v, dictGet d kModel = some v → v.truthy = false →
      get_camera_from_exif d = get_camera_from_exif (dictErase d kModel)) := by
  constructor
  · intro v h1 hv
    have hchain : dtChain d = dtChain (dictErase d kDTO) := by
      unfold dtChain
      rw [h1, dictGet_dictErase_self, dictGet_dictErase_ne d (by decide)]
      simp [truthyOpt, hv]
    simp only [get_date_from_exif]
    rw [hchain]
  · intro v h1 hv
    have h2 : (ExifVal.vstr "").truthy = false := by decide
    unfold get_camera_from_exif
    rw [h1, dictGet_dictErase_self, dictGet_dictErase_ne d (by decide)]
    simp [hv, h2]

/-- Witness for claim C10 at a concrete mapping whose `DateTimeOriginal`
and `Model` entries are present but empty. -/
theorem falsey_fallback_in_derivation_witness :
    get_date_from_exif dictFalsey = get_date_from_exif (dictErase dictFalsey kDTO) ∧
    get_camera_from_exif dictFalsey = get_camera_from_exif (dictErase dictFalsey kModel) :=
  ⟨(falsey_fallback_in_derivation dictFalsey).1 (.vstr "") (by decide) (by decide),
   (falsey_fallback_in_derivation dictFalsey).2 (.vstr "") (by decide) (by decide)⟩

/-! ## Lemmas about file-name filtering -/

theorem pyLower_eq_dot_iff (c : Char) : pyLower c = '.' ↔ c = '.' := by
  constructor
  · intro h
    unfold pyLower at h
    cases hf : lowerPairs.find? (fun p => p.1 == c) with
    | none => rw [hf] at h; simpa using h
    | some p =>
      rw [hf] at h
      simp only [Option.map_some', Option.getD_some] at h
      have hmem := List.mem_of_find?_eq_some hf
      have hall : ∀ q ∈ lowerPairs, q.2 ≠ '.' := by decide
      exact absurd h (hall p hmem)
  · intro h
    subst h
    decide

theorem extOf_map_pyLower (l : List Char) :
    extOf (l.map pyLower) = (extOf l).map (List.map pyLower) := by
  induction l with
  | nil => rfl
  | cons c rest ih =>
    simp only [List.map_cons, extOf, ih]
    cases h : extOf rest with
    | some e => simp
    | none =>
      by_cases hc : c = '.'
      · subst hc
        simp [show pyLower '.' = '.' by decide]
      · have hnc : pyLower c ≠ '.' := fun hh => hc ((pyLower_eq_dot_iff c).mp hh)
        simp [hc, hnc]

/-! ## Lemmas about the processing loop -/

theorem entryTrace_eq_some {c : PFConfig} {e : Entry} {evs : List WEvent} {r : Row}
    (h : entryTrace c e = some (evs, r)) :
    entryRow c e = some r ∧ evs = [.mkdirp r.dest.dropLast, .copy2 r.orig r.dest] := by
  unfold entryTrace at h
  cases hr : entryRow c e with
  | none => rw [hr] at h; simp at h
  | some r0 =>
    rw [hr] at h
    simp only [Option.map_some', Option.some.injEq, Prod.mk.injEq] at h
    obtain ⟨he, hr0⟩ := h
    subst hr0
    exact ⟨rfl, he.symm⟩

theorem entryRow_fields {c : PFConfig} {e : Entry} {r : Row} (h : entryRow c e = some r) :
    r.filename = e.name ∧ r.orig = c.base ++ [e.name] ∧
    r.date = get_date_from_exif (get_exif e.pil) ∧
    r.camera = get_camera_from_exif (get_exif e.pil) ∧
    ∃ sub, targetSub c.mode r.date r.camera = some sub ∧
      r.dest = c.base ++ ["sorted_by_" ++ c.mode.str, sub, e.name] := by
  simp only [entryRow] at h
  cases ht : targetSub c.mode (get_date_from_exif (get_exif e.pil))
      (get_camera_from_exif (get_exif e.pil)) with
  | none => rw [ht] at h; simp at h
  | some sub =>
    rw [ht] at h
    simp only [Option.map_some', Option.some.injEq] at h
    subst h
    exact ⟨rfl, rfl, rfl, rfl, sub, ht, rfl⟩

/-- The shape of every row: source path under the input folder, destination
path three components below it, and an accepted image name. -/
theorem row_shape {c : PFConfig} {e : Entry} {r : Row} (h : entryRow c e = some r) :
    r.orig = c.base ++ [r.filename] ∧
    ∃ sub, r.dest = c.base ++ ["sorted_by_" ++ c.mode.str, sub, r.filename] := by
  obtain ⟨hf, ho, _, _, sub, _, hd⟩ := entryRow_fields h
  rw [← hf] at ho hd
  exact ⟨ho, sub, hd⟩

theorem processEntries_props (c : PFConfig) :
    ∀ {l : List Entry} {evs : List WEvent} {rows : List Row},
      processEntries c l = some (evs, rows) →
      rows.map Row.filename = (l.filter acceptEntry).map Entry.name ∧
      (∀ r ∈ rows, ∃ e, e ∈ l ∧ acceptEntry e = true ∧ entryRow c e = some r) ∧
      (∀ ev ∈ evs, ∃ r, r ∈ rows ∧
        (ev = .mkdirp r.dest.dropLast ∨ ev = .copy2 r.orig r.dest)) := by
  intro l
  induction l with
  | nil =>
    intro evs rows h
    simp only [processEntries, Option.some.injEq, Prod.mk.injEq] at h
    obtain ⟨h1, h2⟩ := h
    subst h1; subst h2
    simp
  | cons e rest ih =>
    intro evs rows h
    by_cases ha : acceptEntry e = true
    · rw [show processEntries c (e :: rest) =
          (if acceptEntry e then
            match entryTrace c e with
            | none => none
            | some (evs0, r0) =>
              match processEntries c rest with
              | none => none
              | some (evs2, rows2) => some (evs0 ++ evs2, r0 :: rows2)
          else processEntries c rest) from rfl, if_pos ha] at h
      cases het : entryTrace c e with
      | none => rw [het] at h; simp at h
      | some p =>
        obtain ⟨evs0, r0⟩ := p
        rw [het] at h
        cases hrest : processEntries c rest with
        | none => rw [hrest] at h; simp at h
        | some q =>
          obtain ⟨evs2, rows2⟩ := q
          rw [hrest] at h
          simp only [Option.some.injEq, Prod.mk.injEq] at h
          obtain ⟨hevs, hrows⟩ := h
          subst hevs; subst hrows
          obtain ⟨hrow0, hevs0⟩ := entryTrace_eq_some het
          obtain ⟨ihf, ihr, ihe⟩ := ih hrest
          refine ⟨?_, ?_, ?_⟩
          · simp only [List.map_cons, List.filter_cons, ha, ite_true, ihf,
              (entryRow_fields hrow0).1]
          · intro r hr
            rcases List.mem_cons.mp hr with h0 | hm
            · subst h0
              exact ⟨e, List.mem_cons_self _ _, ha, hrow0⟩
            · obtain ⟨e2, he2, ha2, hr2⟩ := ihr r hm
              exact ⟨e2, List.mem_cons_of_mem _ he2, ha2, hr2⟩
          · intro ev hev
            rcases List.mem_append.mp hev with h0 | hm
            · subst hevs0
              rcases List.mem_cons.mp h0 with h1 | h1
              · exact ⟨r0, List.mem_cons_self _ _, Or.inl h1⟩
              · simp only [List.mem_singleton] at h1
                exact ⟨r0, List.mem_cons_self _ _, Or.inr h1⟩
            · obtain ⟨r2, hr2, hor⟩ := ihe ev hm
              exact ⟨r2, List.mem_cons_of_mem _ hr2, hor⟩
    · rw [show processEntries c (e :: rest) =
          (if acceptEntry e then
            match entryTrace c e with
            | none => none
            | some (evs0, r0) =>
              match processEntries c rest with
              | none => none
              | some (evs2, rows2) => some (evs0 ++ evs2, r0 :: rows2)
          else processEntries c rest) from rfl, if_neg ha] at h
      obtain ⟨ihf, ihr, ihe⟩ := ih h
      have hae : acceptEntry e = false := Bool.not_eq_true _ ▸ ha
      refine ⟨?_, ?_, ?_⟩
      · simp only [List.filter_cons, hae, Bool.false_eq_true, ite_false, ihf]
      · intro r hr
        obtain ⟨e2, he2, ha2, hr2⟩ := ihr r hr
        exact ⟨e2, List.mem_cons_of_mem _ he2, ha2, hr2⟩
      · exact ihe

theorem processEntries_all_skip (c : PFConfig) :
    ∀ {l : List Entry}, (∀ e ∈ l, acceptEntry e = false) →
      processEntries c l = some ([], []) := by
  intro l
  induction l with
  | nil => intro _; rfl
  | cons e rest ih =>
    intro h
    have hae : acceptEntry e = false := h e (List.mem_cons_self _ _)
    rw [show processEntries c (e :: rest) =
        (if acceptEntry e then
          match entryTrace c e with
          | none => none
          | some (evs0, r0) =>
            match processEntries c rest with
            | none => none
            | some (evs2, rows2) => some (evs0 ++ evs2, r0 :: rows2)
        else processEntries c rest) from rfl, hae]
    exact ih fun e2 he2 => h e2 (List.mem_cons_of_mem _ he2)

/-- Inversion of a successful `process_folder` run. -/
theorem process_folder_inv {c : PFConfig} {listing : List Entry} {out : PFOut}
    (h : process_folder c listing = some out) :
    ∃ evs rows, processEntries c (sortEntries listing) = some (evs, rows) ∧
      out = ⟨.mkdirp (sortedByDir c) :: evs ++
               [.writeReport (reportPath c) (csvHeader :: rows.map renderRow)],
             rows,
             rows.map (progressLine c) ++
               ["\nReport written to: " ++ renderPath (reportPath c),
                "Sorted output folder: " ++ renderPath (sortedByDir c)]⟩ := by
  unfold process_folder at h
  cases hpe : processEntries c (sortEntries listing) with
  | none => rw [hpe] at h; simp at h
  | some p =>
    obtain ⟨evs, rows⟩ := p
    rw [hpe] at h
    simp only [Option.some.injEq] at h
    exact ⟨evs, rows, rfl, h.symm⟩

/-- The subfolder name computed by the code matches the classification
sentence of the specification whenever the classification completes. -/
theorem targetSub_eq_spec {mode : SortMode} {date : String} {cam : ExifVal} {sub : String}
    (h : targetSub mode date cam = some sub) :
    sub = specSubfolderName mode date (camCellStr cam) := by
  cases mode with
  | date =>
    by_cases hd : date = ""
    · subst hd
      simp only [targetSub, ne_eq, not_true_eq_false, ite_false, Option.some.injEq] at h
      simp [specSubfolderName, ← h]
    · simp only [targetSub, ne_eq, hd, not_false_eq_true, ite_true, Option.some.injEq] at h
      simp [specSubfolderName, hd, ← h]
  | camera =>
    cases cam with
    | vstr s =>
      by_cases ht : (ExifVal.vstr s).truthy = true
      · have hs : s ≠ "" := by
          intro he
          subst he
          simp [ExifVal.truthy] at ht
        simp only [targetSub, ht, ite_true, Option.some.injEq] at h
        simp [specSubfolderName, camCellStr, hs, ← h]
      · have ht2 : (ExifVal.vstr s).truthy = false := by
          simpa using ht
        have hs : s = "" := by
          have : s.data.isEmpty = true := by
            simpa [ExifVal.truthy] using ht2
          cases s with
          | mk data => cases data <;> simp_all
        simp only [targetSub, ht2, Bool.false_eq_true, ite_false, Option.some.injEq] at h
        simp [specSubfolderName, camCellStr, hs, ← h]
    | vbytes b =>
      by_cases ht : (ExifVal.vbytes b).truthy = true
      · simp [targetSub, ht] at h
      · have ht2 : (ExifVal.vbytes b).truthy = false := by simpa using ht
        simp only [targetSub, ht2, Bool.false_eq_true, ite_false, Option.some.injEq] at h
        simp [specSubfolderName, camCellStr, ← h]
    | vint n =>
      by_cases ht : (ExifVal.vint n).truthy = true
      · simp [targetSub, ht] at h
      · have ht2 : (ExifVal.vint n).truthy = false := by simpa using ht
        simp only [targetSub, ht2, Bool.false_eq_true, ite_false, Option.some.injEq] at h
        simp [specSubfolderName, camCellStr, ← h]

/-- Claim C1: for every processed file, the destination path is
`<input_folder>/sorted_by_<mode>/<subfolder>/<filename>` where the
subfolder is the one described by the classification rules of the
specification (date string, sanitized camera name with the
`UnknownCamera` fallback, or `unsorted`). -/
theorem dest_dir_matches_classification (c : PFConfig) (listing : List Entry) (out : PFOut)
    (h : process_folder c listing = some out) :
    ∀ r ∈ out.rows,
      r.dest = c.base ++ ["sorted_by_" ++ c.mode.str,
        specSubfolderName c.mode r.date (camCellStr r.camera), r.filename] := by
  intro r hr
  obtain ⟨evs, rows, hpe, hout⟩ := process_folder_inv h
  subst hout
  obtain ⟨-, hrows, -⟩ := processEntries_props c hpe
  obtain ⟨e, -, -, hrow⟩ := hrows r hr
  obtain ⟨hf, -, -, -, sub, hts, hd⟩ := entryRow_fields hrow
  rw [hd, ← hf, targetSub_eq_spec hts]

/-- Witness for claim C1: the concrete date-mode run places `a.jpg` under
the subfolder named by its derived date. -/
theorem dest_dir_matches_classification_witness :
    rowAW.dest = cfgDate.base ++ ["sorted_by_" ++ cfgDate.mode.str,
      specSubfolderName cfgDate.mode rowAW.date (camCellStr rowAW.camera), rowAW.filename] :=
  dest_dir_matches_classification cfgDate listingW outW rfl rowAW (by decide)

/-- Claim C3: the code filter agrees with the extension rule of the
specification (case-insensitive text after the final dot, no-extension
names rejected), and an entry that is not a regular file with an accepted
extension is skipped: it yields no report row and no copy touches it. -/
theorem non_image_entries_skipped :
    (∀ fname, is_image_file fname = specImageFile fname) ∧
    ∀ (c : PFConfig) (listing : List Entry) (out : PFOut) (e : Entry),
      process_folder c listing = some out →
      (listing.map Entry.name).Nodup → e ∈ listing →
      (e.isFile && is_image_file e.name) = false →
      (∀ r ∈ out.rows, r.filename ≠ e.name) ∧
      (∀ ev ∈ out.events, ∀ s d, ev = .copy2 s d →
        s ≠ c.base ++ [e.name] ∧ d.getLast? ≠ some e.name) := by
  constructor
  · intro fname
    unfold is_image_file specImageFile
    rw [extOf_map_pyLower]
    cases extOf fname.data with
    | none => rfl
    | some e => rfl
  · intro c listing out e h hnd he hskip
    obtain ⟨evs, rows, hpe, hout⟩ := process_folder_inv h
    subst hout
    obtain ⟨-, hrows, hevs⟩ := processEntries_props c hpe
    have hne : ∀ r ∈ rows, r.filename ≠ e.name := by
      intro r hr hname
      obtain ⟨e2, he2, ha2, hrow⟩ := hrows r hr
      have he2m : e2 ∈ listing :=
        (List.perm_insertionSort _ listing).mem_iff.mp he2
      have : e2 = e :=
        List.inj_on_of_nodup_map hnd he2m he ((entryRow_fields hrow).1 ▸ hname)
      rw [this] at ha2
      rw [acceptEntry] at ha2
      rw [ha2] at hskip
      exact Bool.true_eq_false ▸ hskip
    refine ⟨hne, ?_⟩
    intro ev hev s d hcp
    subst hcp
    rcases List.mem_cons.mp hev with h0 | hm
    · exact absurd h0 (by simp)
    rcases List.mem_append.mp hm with h1 | h1
    · obtain ⟨r2, hr2, hor⟩ := hevs _ h1
      rcases hor with h2 | h2
      · exact absurd h2 (by simp)
      · obtain ⟨e2, -, -, hrow⟩ := hrows r2 hr2
        obtain ⟨ho2, sub2, hd2⟩ := row_shape hrow
        obtain ⟨hs2, hdd2⟩ := WEvent.copy2.injEq .. ▸ h2
        constructor
        · intro hc
          rw [hs2, ho2] at hc
          have := List.append_cancel_left hc
          simp only [List.cons.injEq] at this
          exact hne r2 hr2 this.1
        · intro hc
          rw [hdd2, hd2, show c.base ++ ["sorted_by_" ++ c.mode.str, sub2, r2.filename] =
            (c.base ++ ["sorted_by_" ++ c.mode.str, sub2]) ++ [r2.filename] by simp,
            List.getLast?_concat] at hc
          simp only [Option.some.injEq] at hc
          exact hne r2 hr2 hc
    · simp only [List.mem_singleton] at h1
      exact absurd h1 (by simp)

/-- Witness for claim C3 at the concrete scenario: the text file produces
no row and no copy, and the filter agrees with the specification on its
name. -/
theorem non_image_entries_skipped_witness :
    (∀ r ∈ outW.rows, r.filename ≠ entTxt.name) ∧
    (∀ ev ∈ outW.events, ∀ s d, ev = .copy2 s d →
      s ≠ cfgDate.base ++ [entTxt.name] ∧ d.getLast? ≠ some entTxt.name) :=
  non_image_entries_skipped.2 cfgDate listingW outW entTxt rfl (by decide) (by decide)
    (by decide)

/-- Claim C9: even with no eligible entry, the run still creates the
`sorted_by_<mode>` folder (first, before the loop) and still writes the
report containing only the header row. -/
theorem empty_run_creates_base_and_header_report (c : PFConfig) (listing : List Entry)
    (h : ∀ e ∈ listing, acceptEntry e = false) :
    process_folder c listing =
      some ⟨[.mkdirp (sortedByDir c), .writeReport (reportPath c) [csvHeader]], [],
            ["\nReport written to: " ++ renderPath (reportPath c),
             "Sorted output folder: " ++ renderPath (sortedByDir c)]⟩ := by
  have hs : ∀ e ∈ sortEntries listing, acceptEntry e = false := fun e he =>
    h e ((List.perm_insertionSort _ listing).mem_iff.mp he)
  unfold process_folder
  rw [processEntries_all_skip c hs]
  rfl

/-- Witness for claim C9: the listing containing only the text file and the
non-file entry. -/
theorem empty_run_creates_base_and_header_report_witness :
    process_folder cfgDate [entTxt, entDir] =
      some ⟨[.mkdirp (sortedByDir cfgDate), .writeReport (reportPath cfgDate) [csvHeader]], [],
            ["\nReport written to: " ++ renderPath (reportPath cfgDate),
             "Sorted output folder: " ++ renderPath (sortedByDir cfgDate)]⟩ :=
  empty_run_creates_base_and_header_report cfgDate [entTxt, entDir] (by decide)

/-! ## Lemmas about the file-system interpretation -/

theorem lookupF_setF_self : ∀ (fl : List (FPath × FileObj)) (p : FPath) (o : FileObj),
    lookupF (setF fl p o) p = some o := by
  intro fl p o
  induction fl with
  | nil => simp [setF, lookupF]
  | cons q t ih =>
    obtain ⟨qp, qo⟩ := q
    by_cases h : qp = p
    · simp [setF, h, lookupF]
    · simp [setF, h, lookupF, ih]

theorem lookupF_setF_ne : ∀ (fl : List (FPath × FileObj)) (p : FPath) (o : FileObj)
    (q : FPath), q ≠ p → lookupF (setF fl p o) q = lookupF fl q := by
  intro fl p o q hne
  induction fl with
  | nil =>
    have h0 : ¬(p = q) := fun hh => hne hh.symm
    simp [setF, lookupF, h0]
  | cons e t ih =>
    obtain ⟨ep, eo⟩ := e
    by_cases h : ep = p
    · subst h
      have h3 : ¬(ep = q) := fun hh => hne hh.symm
      simp [setF, lookupF, h3]
    · by_cases h2 : ep = q
      · subst h2
        simp [setF, h, lookupF]
      · simp [setF, h, lookupF, h2, ih]

theorem lookupF_setF_isSome (fl : List (FPath × FileObj)) (p : FPath) (o : FileObj)
    (q : FPath) (h : (lookupF fl q).isSome) : (lookupF (setF fl p o) q).isSome := by
  by_cases hq : q = p
  · subst hq
    rw [lookupF_setF_self]
    rfl
  · rwa [lookupF_setF_ne fl p o q hq]

theorem applyEvent_files_stable {fs fs2 : FSt} {ev : WEvent}
    (h : applyEvent fs ev = some fs2) (q : FPath) (hw : writesPath ev ≠ some q) :
    lookupF fs2.files q = lookupF fs.files q := by
  cases ev with
  | mkdirp p =>
    simp only [applyEvent, Option.some.injEq] at h
    rw [← h]
  | copy2 src dst =>
    have hne : dst ≠ q := fun he => hw (by rw [writesPath, he])
    simp only [applyEvent] at h
    cases hl : lookupF fs.files src with
    | none => rw [hl] at h; simp at h
    | some o =>
      simp only [hl, Option.some_bind] at h
      by_cases hd : dst.dropLast ∈ fs.dirs
      · rw [if_pos hd] at h
        simp only [Option.some.injEq] at h
        rw [← h]
        exact lookupF_setF_ne _ _ _ _ (fun he => hne he.symm)
      · rw [if_neg hd] at h; simp at h
  | writeReport p t =>
    have hne : p ≠ q := fun he => hw (by rw [writesPath, he])
    simp only [applyEvent] at h
    by_cases hd : p.dropLast ∈ fs.dirs
    · rw [if_pos hd] at h
      simp only [Option.some.injEq] at h
      rw [← h]
      exact lookupF_setF_ne _ _ _ _ (fun he => hne he.symm)
    · rw [if_neg hd] at h; simp at h

theorem applyEvent_dirs_mono {fs fs2 : FSt} {ev : WEvent}
    (h : applyEvent fs ev = some fs2) (q : FPath) (hq : q ∈ fs.dirs) : q ∈ fs2.dirs := by
  cases ev with
  | mkdirp p =>
    simp only [applyEvent, Option.some.injEq] at h
    rw [← h]
    exact List.mem_append.mpr (Or.inr hq)
  | copy2 src dst =>
    simp only [applyEvent] at h
    cases hl : lookupF fs.files src with
    | none => rw [hl] at h; simp at h
    | some o =>
      simp only [hl, Option.some_bind] at h
      by_cases hd : dst.dropLast ∈ fs.dirs
      · rw [if_pos hd] at h
        simp only [Option.some.injEq] at h
        rw [← h]
        exact hq
      · rw [if_neg hd] at h; simp at h
  | writeReport p t =>
    simp only [applyEvent] at h
    by_cases hd : p.dropLast ∈ fs.dirs
    · rw [if_pos hd] at h
      simp only [Option.some.injEq] at h
      rw [← h]
      exact hq
    · rw [if_neg hd] at h; simp at h

theorem applyEvent_files_isSome {fs fs2 : FSt} {ev : WEvent}
    (h : applyEvent fs ev = some fs2) (q : FPath)
    (hq : (lookupF fs.files q).isSome) : (lookupF fs2.files q).isSome := by
  cases ev with
  | mkdirp p =>
    simp only [applyEvent, Option.some.injEq] at h
    rw [← h]
    exact hq
  | copy2 src dst =>
    simp only [applyEvent] at h
    cases hl : lookupF fs.files src with
    | none => rw [hl] at h; simp at h
    | some o =>
      simp only [hl, Option.some_bind] at h
      by_cases hd : dst.dropLast ∈ fs.dirs
      · rw [if_pos hd] at h
        simp only [Option.some.injEq] at h
        rw [← h]
        exact lookupF_setF_isSome _ _ _ _ hq
      · rw [if_neg hd] at h; simp at h
  | writeReport p t =>
    simp only [applyEvent] at h
    by_cases hd : p.dropLast ∈ fs.dirs
    · rw [if_pos hd] at h
      simp only [Option.some.injEq] at h
      rw [← h]
      exact lookupF_setF_isSome _ _ _ _ hq
    · rw [if_neg hd] at h; simp at h

theorem runEvents_cons {fs : FSt} {ev : WEvent} {t : List WEvent} :
    runEvents fs (ev :: t) = (applyEvent fs ev).bind fun fs2 => runEvents fs2 t := rfl

theorem runEvents_append : ∀ (a : List WEvent) (fs : FSt) (b : List WEvent),
    runEvents fs (a ++ b) = (runEvents fs a).bind fun m => runEvents m b := by
  intro a
  induction a with
  | nil => intro fs b; rfl
  | cons ev t ih =>
    intro fs b
    rw [List.cons_append, runEvents_cons, runEvents_cons]
    cases applyEvent fs ev with
    | none => rfl
    | some fs2 =>
      simp only [Option.some_bind]
      exact ih fs2 b

theorem runEvents_lookup_stable : ∀ (evs : List WEvent) (fs fin : FSt) (q : FPath),
    runEvents fs evs = some fin → (∀ ev ∈ evs, writesPath ev ≠ some q) →
    lookupF fin.files q = lookupF fs.files q := by
  intro evs
  induction evs with
  | nil =>
    intro fs fin q h _
    simp only [runEvents, Option.some.injEq] at h
    rw [← h]
  | cons ev t ih =>
    intro fs fin q h hw
    rw [runEvents_cons] at h
    cases ha : applyEvent fs ev with
    | none => rw [ha] at h; simp at h
    | some fs2 =>
      simp only [ha, Option.some_bind] at h
      rw [ih fs2 fin q h fun e he => hw e (List.mem_cons_of_mem _ he)]
      exact applyEvent_files_stable ha q (hw ev (List.mem_cons_self _ _))

theorem runEvents_dirs_mono : ∀ (evs : List WEvent) (fs fin : FSt),
    runEvents fs evs = some fin → ∀ q ∈ fs.dirs, q ∈ fin.dirs := by
  intro evs
  induction evs with
  | nil =>
    intro fs fin h q hq
    simp only [runEvents, Option.some.injEq] at h
    rw [← h]
    exact hq
  | cons ev t ih =>
    intro fs fin h q hq
    rw [runEvents_cons] at h
    cases ha : applyEvent fs ev with
    | none => rw [ha] at h; simp at h
    | some fs2 =>
      simp only [ha, Option.some_bind] at h
      exact ih fs2 fin h q (applyEvent_dirs_mono ha q hq)

theorem runEvents_isSome_mono : ∀ (evs : List WEvent) (fs fin : FSt) (q : FPath),
    runEvents fs evs = some fin → (lookupF fs.files q).isSome →
    (lookupF fin.files q).isSome := by
  intro evs
  induction evs with
  | nil =>
    intro fs fin q h hq
    simp only [runEvents, Option.some.injEq] at h
    rw [← h]
    exact hq
  | cons ev t ih =>
    intro fs fin q h hq
    rw [runEvents_cons] at h
    cases ha : applyEvent fs ev with
    | none => rw [ha] at h; simp at h
    | some fs2 =>
      simp only [ha, Option.some_bind] at h
      exact ih fs2 fin q h (applyEvent_files_isSome ha q hq)

theorem applyEvent_copy_inv {fs fs2 : FSt} {src dst : FPath}
    (h : applyEvent fs (.copy2 src dst) = some fs2) :
    ∃ o, lookupF fs.files src = some o ∧ fs2.files = setF fs.files dst o ∧
      fs2.dirs = fs.dirs := by
  simp only [applyEvent] at h
  cases hl : lookupF fs.files src with
  | none => rw [hl] at h; simp at h
  | some o =>
    simp only [hl, Option.some_bind] at h
    by_cases hd : dst.dropLast ∈ fs.dirs
    · rw [if_pos hd] at h
      simp only [Option.some.injEq] at h
      exact ⟨o, rfl, by rw [← h], by rw [← h]⟩
    · rw [if_neg hd] at h; simp at h

theorem applyEvent_report_inv {fs fs2 : FSt} {p : FPath} {t : List (List String)}
    (h : applyEvent fs (.writeReport p t) = some fs2) :
    fs2.files = setF fs.files p ⟨.table t, none⟩ ∧ fs2.dirs = fs.dirs := by
  simp only [applyEvent] at h
  by_cases hd : p.dropLast ∈ fs.dirs
  · rw [if_pos hd] at h
    simp only [Option.some.injEq] at h
    exact ⟨by rw [← h], by rw [← h]⟩
  · rw [if_neg hd] at h; simp at h

theorem applyEvent_mkdirp_inv {fs fs2 : FSt} {p : FPath}
    (h : applyEvent fs (.mkdirp p) = some fs2) :
    fs2.files = fs.files ∧ fs2.dirs = p.inits ++ fs.dirs := by
  simp only [applyEvent, Option.some.injEq] at h
  exact ⟨by rw [← h], by rw [← h]⟩

/-- Claim C4: the processed entries are those of the listing sorted
lexicographically by name and filtered by acceptance, in that order (the
report names are pairwise in Python string order, and are a permutation of
the accepted names of the listing); the last event of the run writes the
report at `<input_folder>/<report_filename>` with the header row followed
by exactly one data row per record in processing order, and in any final
file-system state of a completed run the report path holds exactly that
table, whatever file was there before. -/
theorem report_rows_and_order (c : PFConfig) (listing : List Entry) (out : PFOut)
    (h : process_folder c listing = some out) :
    out.rows.map Row.filename = ((sortEntries listing).filter acceptEntry).map Entry.name ∧
    List.Pairwise (fun a b => pyStrLe a b = true) (out.rows.map Row.filename) ∧
    List.Perm (out.rows.map Row.filename) ((listing.filter acceptEntry).map Entry.name) ∧
    out.events.getLast? =
      some (.writeReport (reportPath c) (csvHeader :: out.rows.map renderRow)) ∧
    (∀ fs0 fin : FSt, runEvents fs0 out.events = some fin →
      lookupF fin.files (reportPath c) =
        some ⟨.table (csvHeader :: out.rows.map renderRow), none⟩) := by
  obtain ⟨evs, rows, hpe, hout⟩ := process_folder_inv h
  subst hout
  obtain ⟨hf, -, -⟩ := processEntries_props c hpe
  refine ⟨hf, ?_, ?_, ?_, ?_⟩
  · rw [hf]
    have hsorted :
        List.Pairwise (fun a b : Entry => pyStrLe a.name b.name = true)
          (sortEntries listing) :=
      List.sorted_insertionSort (fun a b : Entry => pyStrLe a.name b.name = true) listing
    exact List.pairwise_map.mpr (List.Pairwise.sublist (List.filter_sublist _) hsorted)
  · rw [hf]
    exact ((List.perm_insertionSort
      (fun a b : Entry => pyStrLe a.name b.name = true) listing).filter _).map _
  · rw [show (WEvent.mkdirp (sortedByDir c) :: evs ++
        [WEvent.writeReport (reportPath c) (csvHeader :: rows.map renderRow)]) =
      (WEvent.mkdirp (sortedByDir c) :: evs) ++
        [WEvent.writeReport (reportPath c) (csvHeader :: rows.map renderRow)] from rfl]
    exact List.getLast?_concat _
  · intro fs0 fin hrun
    rw [show (WEvent.mkdirp (sortedByDir c) :: evs ++
        [WEvent.writeReport (reportPath c) (csvHeader :: rows.map renderRow)]) =
      (WEvent.mkdirp (sortedByDir c) :: evs) ++
        [WEvent.writeReport (reportPath c) (csvHeader :: rows.map renderRow)] from rfl,
      runEvents_append] at hrun
    cases hm : runEvents fs0 (WEvent.mkdirp (sortedByDir c) :: evs) with
    | none => rw [hm] at hrun; simp at hrun
    | some mid =>
      simp only [hm, Option.some_bind] at hrun
      rw [runEvents_cons] at hrun
      cases ha : applyEvent mid
          (.writeReport (reportPath c) (csvHeader :: rows.map renderRow)) with
      | none => rw [ha] at hrun; simp at hrun
      | some fs2 =>
        simp only [ha, Option.some_bind, runEvents, Option.some.injEq] at hrun
        obtain ⟨hfiles, -⟩ := applyEvent_report_inv ha
        rw [← hrun, hfiles]
        exact lookupF_setF_self _ _ _

/-! ## Path disjointness and trace decomposition -/

theorem path_ne_len_13 (base : FPath) (n a b c2 : String) :
    base ++ [n] ≠ base ++ [a, b, c2] := by
  intro h
  have := congrArg List.length h
  simp [List.length_append] at this

theorem path_ne_of_last_ne {base : FPath} {sb sub n sub2 n2 : String} (h : n ≠ n2) :
    base ++ [sb, sub, n] ≠ base ++ [sb, sub2, n2] := by
  intro he
  have h2 := List.append_cancel_left he
  simp only [List.cons.injEq] at h2
  exact h h2.2.2.1

theorem path_ne_one_of_ne {base : FPath} {x y : String} (h : x ≠ y) :
    base ++ [x] ≠ base ++ [y] := by
  intro he
  have h2 := List.append_cancel_left he
  simp only [List.cons.injEq, and_true] at h2
  exact h h2

/-- Decomposition of the event trace of the loop around one row: the events
of the earlier rows, then the mkdir and the copy of this row, then the
events of the later rows. -/
theorem processEntries_decomp (c : PFConfig) :
    ∀ {l : List Entry} {evs : List WEvent} {rowsPre : List Row} {r : Row} {rowsSuf : List Row},
      processEntries c l = some (evs, rowsPre ++ r :: rowsSuf) →
      ∃ pre suf, evs = pre ++ [.mkdirp r.dest.dropLast, .copy2 r.orig r.dest] ++ suf ∧
        (∀ ev ∈ pre, ∃ r2, r2 ∈ rowsPre ∧
          (ev = .mkdirp r2.dest.dropLast ∨ ev = .copy2 r2.orig r2.dest)) ∧
        (∀ ev ∈ suf, ∃ r2, r2 ∈ rowsSuf ∧
          (ev = .mkdirp r2.dest.dropLast ∨ ev = .copy2 r2.orig r2.dest)) := by
  intro l
  induction l with
  | nil =>
    intro evs rowsPre r rowsSuf h
    simp only [processEntries, Option.some.injEq, Prod.mk.injEq] at h
    exact absurd h.2.symm (by simp)
  | cons e rest ih =>
    intro evs rowsPre r rowsSuf h
    by_cases ha : acceptEntry e = true
    · rw [show processEntries c (e :: rest) =
          (if acceptEntry e then
            match entryTrace c e with
            | none => none
            | some (evs0, r0) =>
              match processEntries c rest with
              | none => none
              | some (evs2, rows2) => some (evs0 ++ evs2, r0 :: rows2)
          else processEntries c rest) from rfl, if_pos ha] at h
      cases het : entryTrace c e with
      | none => rw [het] at h; simp at h
      | some p =>
        obtain ⟨evs0, r0⟩ := p
        rw [het] at h
        cases hrest : processEntries c rest with
        | none => rw [hrest] at h; simp at h
        | some q =>
          obtain ⟨evs2, rows2⟩ := q
          rw [hrest] at h
          simp only [Option.some.injEq, Prod.mk.injEq] at h
          obtain ⟨hevs, hrows⟩ := h
          obtain ⟨hrow0, hevs0⟩ := entryTrace_eq_some het
          cases rowsPre with
          | nil =>
            simp only [List.nil_append, List.cons.injEq] at hrows
            obtain ⟨hr0, hsuf⟩ := hrows
            refine ⟨[], evs2, ?_, by simp, ?_⟩
            · rw [← hevs, hevs0, hr0]
              simp
            · obtain ⟨-, -, hevts⟩ := processEntries_props c hrest
              intro ev hev
              obtain ⟨r2, hr2, hor⟩ := hevts ev hev
              exact ⟨r2, hsuf ▸ hr2, hor⟩
          | cons rp rps =>
            simp only [List.cons_append, List.cons.injEq] at hrows
            obtain ⟨hr0, hrows2⟩ := hrows
            rw [hrows2] at hrest
            obtain ⟨pre2, suf2, he2, hpre2, hsuf2⟩ := ih hrest
            refine ⟨evs0 ++ pre2, suf2, ?_, ?_, hsuf2⟩
            · rw [← hevs, he2]
              simp [List.append_assoc]
            · intro ev hev
              rcases List.mem_append.mp hev with h1 | h1
              · rw [hevs0] at h1
                rcases List.mem_cons.mp h1 with h2 | h2
                · exact ⟨rp, List.mem_cons_self _ _, Or.inl (by rw [h2, hr0])⟩
                · simp only [List.mem_singleton] at h2
                  exact ⟨rp, List.mem_cons_self _ _, Or.inr (by rw [h2, hr0])⟩
              · obtain ⟨r2, hr2, hor⟩ := hpre2 ev h1
                exact ⟨r2, List.mem_cons_of_mem _ hr2, hor⟩
    · rw [show processEntries c (e :: rest) =
          (if acceptEntry e then
            match entryTrace c e with
            | none => none
            | some (evs0, r0) =>
              match processEntries c rest with
              | none => none
              | some (evs2, rows2) => some (evs0 ++ evs2, r0 :: rows2)
          else processEntries c rest) from rfl, if_neg ha] at h
      exact ih h

/-- The combined effect of one accepted file on the interpreted file
system: the source object is read from the initial state, lands at the
destination in the final state, the destination directory and its parents
exist at the end, the source path still exists at the end, and — when the
report name does not collide with the file name — the source object is
untouched at the end. -/
theorem run_copy_effect (c : PFConfig) (listing : List Entry) (out : PFOut) (fs0 fin : FSt)
    (hpf : process_folder c listing = some out)
    (hrun : runEvents fs0 out.events = some fin)
    (hnd : (listing.map Entry.name).Nodup)
    (r : Row) (hr : r ∈ out.rows) :
    ∃ o : FileObj,
      lookupF fs0.files r.orig = some o ∧
      lookupF fin.files r.dest = some o ∧
      (∀ q ∈ r.dest.dropLast.inits, q ∈ fin.dirs) ∧
      (lookupF fin.files r.orig).isSome ∧
      (c.report ≠ r.filename → lookupF fin.files r.orig = some o) ∧
      is_image_file r.filename = true ∧
      r.dest = r.dest.dropLast ++ [r.filename] := by
  obtain ⟨evs, rows, hpe, hout⟩ := process_folder_inv hpf
  subst hout
  have hr2 : r ∈ rows := hr
  obtain ⟨hfnames, hrowsE, hevtsE⟩ := processEntries_props c hpe
  have hshape : ∀ r2 ∈ rows, r2.orig = c.base ++ [r2.filename] ∧
      (∃ sub, r2.dest = c.base ++ ["sorted_by_" ++ c.mode.str, sub, r2.filename]) ∧
      is_image_file r2.filename = true := by
    intro r2 hr2m
    obtain ⟨e, _, hae, hrowE⟩ := hrowsE r2 hr2m
    obtain ⟨ho, sub, hd⟩ := row_shape hrowE
    refine ⟨ho, ⟨sub, hd⟩, ?_⟩
    rw [(entryRow_fields hrowE).1]
    rw [acceptEntry, Bool.and_eq_true] at hae
    exact hae.2
  have hnodupf : (rows.map Row.filename).Nodup := by
    rw [hfnames]
    have hperm : List.Perm ((sortEntries listing).map Entry.name) (listing.map Entry.name) :=
      (List.perm_insertionSort _ listing).map _
    have hnodups : ((sortEntries listing).map Entry.name).Nodup := hperm.nodup_iff.mpr hnd
    exact List.Nodup.sublist ((List.filter_sublist _).map _) hnodups
  obtain ⟨rowsPre, rowsSuf, hsplit⟩ := List.append_of_mem hr2
  have hpe2 := hpe
  rw [hsplit] at hpe2
  obtain ⟨pre, suf, hevsplit, hpreE, hsufE⟩ := processEntries_decomp c hpe2
  have hne : ∀ r2, (r2 ∈ rowsPre ∨ r2 ∈ rowsSuf) → r2.filename ≠ r.filename := by
    have hnf := hnodupf
    rw [hsplit, List.map_append, List.map_cons, List.nodup_append] at hnf
    obtain ⟨-, hn2, hdisj⟩ := hnf
    have hnotsuf : r.filename ∉ rowsSuf.map Row.filename := (List.nodup_cons.mp hn2).1
    have hnotpre : r.filename ∉ rowsPre.map Row.filename := fun hmem =>
      hdisj hmem (List.mem_cons_self _ _)
    intro r2 hor he
    rcases hor with hmem | hmem
    · exact hnotpre (he ▸ List.mem_map_of_mem Row.filename hmem)
    · exact hnotsuf (he ▸ List.mem_map_of_mem Row.filename hmem)
  obtain ⟨horig, ⟨sub, hdest⟩, himg⟩ := hshape r hr2
  have hgroup : c.base ++ ["sorted_by_" ++ c.mode.str, sub, r.filename] =
      (c.base ++ ["sorted_by_" ++ c.mode.str, sub]) ++ [r.filename] := by simp
  have hdrop : r.dest.dropLast = c.base ++ ["sorted_by_" ++ c.mode.str, sub] := by
    rw [hdest, hgroup, List.dropLast_concat]
  have hdestform : r.dest = r.dest.dropLast ++ [r.filename] := by
    rw [hdrop, hdest, hgroup]
  -- membership transfers into the full row list
  have hmemPre : ∀ r2 ∈ rowsPre, r2 ∈ rows := fun r2 hm => by
    rw [hsplit]; exact List.mem_append.mpr (Or.inl hm)
  have hmemSuf : ∀ r2 ∈ rowsSuf, r2 ∈ rows := fun r2 hm => by
    rw [hsplit]; exact List.mem_append.mpr (Or.inr (List.mem_cons_of_mem _ hm))
  -- no event of the loop writes the source path of r
  have hrow_no_orig : ∀ r2 ∈ rows, r2.dest ≠ r.orig := by
    intro r2 hm he
    obtain ⟨-, ⟨sub2, hd2⟩, -⟩ := hshape r2 hm
    rw [hd2, horig] at he
    exact path_ne_len_13 c.base r.filename _ _ _ he.symm
  have hpre_no_orig : ∀ ev ∈ pre, writesPath ev ≠ some r.orig := by
    intro ev hev hw
    obtain ⟨r2, hr2m, hor⟩ := hpreE ev hev
    rcases hor with h2 | h2 <;> rw [h2] at hw <;> simp [writesPath] at hw
    exact hrow_no_orig r2 (hmemPre r2 hr2m) hw
  have hsuf_no_orig : ∀ ev ∈ suf, writesPath ev ≠ some r.orig := by
    intro ev hev hw
    obtain ⟨r2, hr2m, hor⟩ := hsufE ev hev
    rcases hor with h2 | h2 <;> rw [h2] at hw <;> simp [writesPath] at hw
    exact hrow_no_orig r2 (hmemSuf r2 hr2m) hw
  have hsuf_no_dest : ∀ ev ∈ suf, writesPath ev ≠ some r.dest := by
    intro ev hev hw
    obtain ⟨r2, hr2m, hor⟩ := hsufE ev hev
    rcases hor with h2 | h2 <;> rw [h2] at hw <;> simp [writesPath] at hw
    obtain ⟨-, ⟨sub2, hd2⟩, -⟩ := hshape r2 (hmemSuf r2 hr2m)
    rw [hd2, hdest] at hw
    exact path_ne_of_last_ne (hne r2 (Or.inr hr2m)) hw
  have hrep_ne_dest :
      writesPath (WEvent.writeReport (reportPath c) (csvHeader :: rows.map renderRow)) ≠
        some r.dest := by
    simp only [writesPath, ne_eq, Option.some.injEq]
    rw [reportPath, hdest]
    exact path_ne_len_13 c.base c.report _ _ _
  -- keep the full run for monotone facts
  have hrun0 := hrun
  -- peel the initial mkdir and split the trace around the copy of r
  dsimp only at hrun
  rw [hevsplit] at hrun
  rw [runEvents_append, runEvents_cons] at hrun
  have hmk0 : applyEvent fs0 (WEvent.mkdirp (sortedByDir c)) =
      some ⟨fs0.files, (sortedByDir c).inits ++ fs0.dirs⟩ := rfl
  simp only [hmk0, Option.some_bind] at hrun
  rw [List.append_assoc pre, runEvents_append] at hrun
  cases hm1 : runEvents ⟨fs0.files, (sortedByDir c).inits ++ fs0.dirs⟩ pre with
  | none => rw [hm1] at hrun; simp at hrun
  | some m1 =>
    simp only [hm1, Option.some_bind] at hrun
    rw [show ([WEvent.mkdirp r.dest.dropLast, WEvent.copy2 r.orig r.dest] ++ suf) =
      WEvent.mkdirp r.dest.dropLast :: WEvent.copy2 r.orig r.dest :: suf from rfl,
      runEvents_cons] at hrun
    have hmk1 : applyEvent m1 (WEvent.mkdirp r.dest.dropLast) =
        some ⟨m1.files, r.dest.dropLast.inits ++ m1.dirs⟩ := rfl
    simp only [hmk1, Option.some_bind] at hrun
    rw [runEvents_cons] at hrun
    cases hacp : applyEvent ⟨m1.files, r.dest.dropLast.inits ++ m1.dirs⟩
        (WEvent.copy2 r.orig r.dest) with
    | none => rw [hacp] at hrun; simp at hrun
    | some m3 =>
      simp only [hacp, Option.some_bind] at hrun
      cases hm4 : runEvents m3 suf with
      | none => rw [hm4] at hrun; simp at hrun
      | some m4 =>
        simp only [hm4, Option.some_bind] at hrun
        -- hrun : runEvents m4 [report] = some fin
        obtain ⟨o, hlook2, hfiles3, hdirs3⟩ := applyEvent_copy_inv hacp
        have hlook_m1 : lookupF m1.files r.orig = some o := hlook2
        have hlook_fs0 : lookupF fs0.files r.orig = some o := by
          rw [← runEvents_lookup_stable pre _ m1 r.orig hm1 hpre_no_orig]
          exact hlook_m1
        have hdest_m3 : lookupF m3.files r.dest = some o := by
          rw [hfiles3]
          exact lookupF_setF_self _ _ _
        have hdest_m4 : lookupF m4.files r.dest = some o := by
          rw [runEvents_lookup_stable suf m3 m4 r.dest hm4 hsuf_no_dest]
          exact hdest_m3
        have hdest_fin : lookupF fin.files r.dest = some o := by
          rw [runEvents_lookup_stable _ m4 fin r.dest hrun
            (by intro ev hev; simp only [List.mem_singleton] at hev; rw [hev];
                exact hrep_ne_dest)]
          exact hdest_m4
        have hdirs_fin : ∀ q ∈ r.dest.dropLast.inits, q ∈ fin.dirs := by
          intro q hq
          have hq3 : q ∈ m3.dirs := by
            rw [hdirs3]
            exact List.mem_append.mpr (Or.inl hq)
          have hq4 : q ∈ m4.dirs := runEvents_dirs_mono suf m3 m4 hm4 q hq3
          exact runEvents_dirs_mono _ m4 fin hrun q hq4
        have hsome_fin : (lookupF fin.files r.orig).isSome :=
          runEvents_isSome_mono _ fs0 fin r.orig hrun0 (by rw [hlook_fs0]; rfl)
        refine ⟨o, hlook_fs0, hdest_fin, hdirs_fin, hsome_fin, ?_, himg, hdestform⟩
        intro hrep
        have hall : ∀ ev ∈ WEvent.mkdirp (sortedByDir c) :: evs ++
              [WEvent.writeReport (reportPath c) (csvHeader :: rows.map renderRow)],
            writesPath ev ≠ some r.orig := by
          intro ev hev
          intro hw
          rcases List.mem_cons.mp hev with h0 | hm
          · rw [h0] at hw; simp [writesPath] at hw
          rcases List.mem_append.mp hm with h1 | h1
          · obtain ⟨r2, hr2m, hor⟩ := hevtsE ev h1
            rcases hor with h2 | h2 <;> rw [h2] at hw <;> simp [writesPath] at hw
            exact hrow_no_orig r2 hr2m hw
          · simp only [List.mem_singleton] at h1
            rw [h1] at hw
            simp only [writesPath, Option.some.injEq] at hw
            rw [reportPath, horig] at hw
            exact path_ne_one_of_ne hrep hw
        rw [runEvents_lookup_stable _ fs0 fin r.orig hrun0 hall]
        exact hlook_fs0

/-- Claim C6: for every accepted file, the destination directory is
created if needed, idempotently and with its parents (they all exist in
the final state); the content and stat data (modification time and
permission bits) of the source are copied to
`<destination_dir>/<original_filename>`; the original is never moved or
deleted (a file still exists at its path at the end of the run); and since
the initial state `fs0` is arbitrary — it may already hold a file at the
destination — the final state holding the copied object shows that an
existing destination file is silently overwritten. -/
theorem copy_effects (c : PFConfig) (listing : List Entry) (out : PFOut) (fs0 fin : FSt)
    (hpf : process_folder c listing = some out)
    (hrun : runEvents fs0 out.events = some fin)
    (hnd : (listing.map Entry.name).Nodup) :
    ∀ r ∈ out.rows,
      ∃ o : FileObj,
        lookupF fs0.files r.orig = some o ∧
        lookupF fin.files r.dest = some o ∧
        r.dest = r.dest.dropLast ++ [r.filename] ∧
        (∀ q ∈ r.dest.dropLast.inits, q ∈ fin.dirs) ∧
        (lookupF fin.files r.orig).isSome := by
  intro r hr
  obtain ⟨o, h1, h2, h3, h4, -, -, h7⟩ :=
    run_copy_effect c listing out fs0 fin hpf hrun hnd r hr
  exact ⟨o, h1, h2, h7, h3, h4⟩

/-- Witness for claim C6 at the concrete date-mode run. -/
theorem copy_effects_witness :
    ∃ o : FileObj,
      lookupF fs0W.files rowAW.orig = some o ∧
      lookupF finW.files rowAW.dest = some o ∧
      rowAW.dest = rowAW.dest.dropLast ++ [rowAW.filename] ∧
      (∀ q ∈ rowAW.dest.dropLast.inits, q ∈ finW.dirs) ∧
      (lookupF finW.files rowAW.orig).isSome :=
  copy_effects cfgDate listingW outW fs0W finW rfl rfl (by decide) rowAW (by decide)

/-- Counterexample to claim C5 as stated: when the report filename is
itself the name of a processed image (`--report a.jpg` in a folder holding
`a.jpg`), the report write overwrites the original after it was copied, so
the record written to the CSV has a `dest_path` (the copied image bytes)
that is not byte-identical to `orig_path` (now the CSV table). -/
theorem roundtrip_fails_on_report_name_collision :
    process_folder cfgClash [entA] = some outClash ∧
    runEvents fs0Clash outClash.events = some finClash ∧
    rowClash ∈ outClash.rows ∧
    (lookupF finClash.files rowClash.dest).map FileObj.content =
      some (.bytes [1, 2, 3]) ∧
    (lookupF finClash.files rowClash.orig).map FileObj.content =
      some (.table (csvHeader :: outClash.rows.map renderRow)) ∧
    (lookupF finClash.files rowClash.dest).map FileObj.content ≠
      (lookupF finClash.files rowClash.orig).map FileObj.content :=
  ⟨rfl, rfl, by decide, by decide, by decide, by decide⟩

/-- Claim C5 (amended): provided the report filename is not itself an
eligible image name (so the report write cannot overwrite a processed
original), every record written to the CSV has its destination file
byte-identical to its source file in the final state: both paths hold the
same file object. -/
theorem roundtrip_with_noncolliding_report (c : PFConfig) (listing : List Entry)
    (out : PFOut) (fs0 fin : FSt)
    (hpf : process_folder c listing = some out)
    (hrun : runEvents fs0 out.events = some fin)
    (hnd : (listing.map Entry.name).Nodup)
    (hrep : is_image_file c.report = false) :
    ∀ r ∈ out.rows,
      ∃ o : FileObj,
        lookupF fin.files r.orig = some o ∧ lookupF fin.files r.dest = some o := by
  intro r hr
  obtain ⟨o, -, h2, -, -, h5, h6, -⟩ :=
    run_copy_effect c listing out fs0 fin hpf hrun hnd r hr
  have hne : c.report ≠ r.filename := by
    intro he
    rw [he, h6] at hrep
    exact absurd hrep (by simp)
  exact ⟨o, h5 hne, h2⟩

/-- Witness for the amended claim C5 at the concrete date-mode run with the
default report name. -/
theorem roundtrip_with_noncolliding_report_witness :
    ∃ o : FileObj,
      lookupF finW.files rowAW.orig = some o ∧ lookupF finW.files rowAW.dest = some o :=
  roundtrip_with_noncolliding_report cfgDate listingW outW fs0W finW rfl rfl
    (by decide) (by decide) rowAW (by decide)

/-- Claim C8: when the input folder argument is not a directory, the
program prints the error to standard output, exits with status 1 and
performs no file-system event (no copy, no report); otherwise, whenever
the pipeline completes, the program exits with status 0 having performed
exactly the events of the pipeline. -/
theorem main_exit_behavior (folderArg : String) (c : PFConfig) (listing : List Entry) :
    (pymain folderArg false c listing =
      some ⟨1, ["Input folder doesn\x27t exist: " ++ folderArg], []⟩) ∧
    (∀ out, process_folder c listing = some out →
      pymain folderArg true c listing = some ⟨0, out.prints, out.events⟩) := by
  constructor
  · rfl
  · intro out h
    simp [pymain, h]

/-- Witness for claim C8: a missing folder, and the completed concrete
run. -/
theorem main_exit_behavior_witness :
    (pymain "/missing" false cfgDate listingW =
      some ⟨1, ["Input folder doesn\x27t exist: /missing"], []⟩) ∧
    pymain "/photos" true cfgDate listingW = some ⟨0, outW.prints, outW.events⟩ :=
  ⟨(main_exit_behavior "/missing" cfgDate listingW).1,
   (main_exit_behavior "/photos" cfgDate listingW).2 outW rfl⟩

/-- Witness for claim C4 at the concrete date-mode run, including the final
file-system state of the interpreted trace. -/
theorem report_rows_and_order_witness :
    (outW.rows.map Row.filename =
      ((sortEntries listingW).filter acceptEntry).map Entry.name ∧
    List.Pairwise (fun a b => pyStrLe a b = true) (outW.rows.map Row.filename) ∧
    List.Perm (outW.rows.map Row.filename) ((listingW.filter acceptEntry).map Entry.name) ∧
    outW.events.getLast? =
      some (.writeReport (reportPath cfgDate) (csvHeader :: outW.rows.map renderRow)) ∧
    (∀ fs0 fin : FSt, runEvents fs0 outW.events = some fin →
      lookupF fin.files (reportPath cfgDate) =
        some ⟨.table (csvHeader :: outW.rows.map renderRow), none⟩)) ∧
    lookupF finW.files (reportPath cfgDate) =
      some ⟨.table (csvHeader :: outW.rows.map renderRow), none⟩ :=
  ⟨report_rows_and_order cfgDate listingW outW rfl,
   (report_rows_and_order cfgDate listingW outW rfl).2.2.2.2 fs0W finW rfl⟩

end PhotoSorter
